import Mathlib

/-!
Verification of the SvxLink core subsystems against their design notes.

This file gives a shallow embedding of three components of the repository:

* `ToneDetector` (src/svxlink/rx/ToneDetector.cpp): the Goertzel tone
  detector.  Floating point state (`FLOATING`, a `double`) is modelled by
  exact rationals; the trigonometric configuration constant `coeff` is a
  parameter of the running semantics, exactly as the C++ object stores the
  value computed once in the constructor.
* The hierarchical state machine (`Async::StateMachine` / `StateBase` /
  `StateTopBase` in AsyncStateMachine.h): a C++ template framework.  A
  concrete state class is modelled by its inheritance chain of type
  identities (most derived first); `dynamic_cast<T*>(s)` succeeding is
  modelled by membership of `T` in the chain of `s`.  Heap objects carry an
  allocation id so that the pointer comparisons of the C++ code are
  modelled by id comparison.  Transitions produce an explicit trace of
  handler invocations.
* `AudioSplitter` (AsyncAudioSplitter.h): only the class declaration is in
  the sources, so the write/back-pressure path is modelled from the design
  document's description (see the doc comments marked as such).
-/

namespace SvxLink

/-! ## Tone detector (ToneDetector.cpp) -/

/-- `THRESHOLD` from ToneDetector.cpp: `#define THRESHOLD 5000000.0`. -/
def THRESHOLD : ℚ := 5000000

/-- The mutable per-object state of `ToneDetector` that evolves while
processing samples: the Goertzel recurrence registers `Q1`, `Q2`, the
position in the current block, the activation release counter and the
last computed block magnitude.  The constants `coeff` and `N`, set once in
the constructor, are passed as parameters to the processing functions. -/
structure TDState where
  Q1 : ℚ
  Q2 : ℚ
  block_pos : ℕ
  is_activated : ℕ
  result : ℚ
deriving DecidableEq, Repr

/-- The signals `ToneDetector` emits: `valueChanged(this, result)` and
`activated(bool)`. -/
inductive TDEvent
  | valueChanged (r : ℚ)
  | activated (b : Bool)
deriving DecidableEq, Repr

/-- `unsigned char usample = ((int)sample + 0x8000) >> 8;` in
`ToneDetector::processSample`.  The input is a C `short`; the int addition
is exact, `>> 8` on the non-negative result is floor division by 256 and
the conversion to `unsigned char` reduces modulo 256. -/
def usample (x : ℤ) : ℤ := ((x + 0x8000) / 256) % 256

/-- `ToneDetector::processSample`: the Goertzel recurrence step
`Q0 = coeff*Q1 - Q2 + usample; Q2 = Q1; Q1 = Q0`. -/
def processSample (coeff : ℚ) (d : TDState) (x : ℤ) : TDState :=
  { d with Q1 := coeff * d.Q1 - d.Q2 + (usample x : ℚ), Q2 := d.Q1 }

/-- `ToneDetector::getMagnitudeSquared`:
`result = Q1*Q1 + Q2*Q2 - Q1*Q2*coeff`. -/
def getMagnitudeSquared (coeff : ℚ) (d : TDState) : ℚ :=
  d.Q1 * d.Q1 + d.Q2 * d.Q2 - d.Q1 * d.Q2 * coeff

/-- The activation bookkeeping performed at a block boundary in
`ToneDetector::processSamples`, given the release counter and the block
result: returns the new counter and the `activated` emissions.
`if (result >= THRESHOLD) { if (!is_activated) activated(true);
is_activated = 3; } else if (is_activated && result < THRESHOLD)
{ --is_activated; if (!is_activated) activated(false); }`. -/
def activationStep (act : ℕ) (r : ℚ) : ℕ × List TDEvent :=
  if THRESHOLD ≤ r then
    (3, if act = 0 then [TDEvent.activated true] else [])
  else if 0 < act ∧ r < THRESHOLD then
    (act - 1, if act = 1 then [TDEvent.activated false] else [])
  else
    (act, [])

/-- The complete block-boundary action of `ToneDetector::processSamples`:
compute the magnitude, emit `valueChanged`, run the activation logic, then
`resetGoertzel()` and `block_pos = 0`. -/
def blockEnd (coeff : ℚ) (d : TDState) : TDState × List TDEvent :=
  let r := getMagnitudeSquared coeff d
  let a := activationStep d.is_activated r
  (⟨0, 0, 0, a.1, r⟩, TDEvent.valueChanged r :: a.2)

/-- `ToneDetector::processSamples`: per sample run `processSample`, then
`if (++block_pos >= N)` finish the block.  Returns the final state and the
emitted events in order. -/
def processSamples (coeff : ℚ) (N : ℕ) : TDState → List ℤ → TDState × List TDEvent
  | d, [] => (d, [])
  | d, x :: xs =>
    let d1 := processSample coeff d x
    if N ≤ d1.block_pos + 1 then
      let b := blockEnd coeff d1
      let rest := processSamples coeff N b.1 xs
      (rest.1, b.2 ++ rest.2)
    else
      processSamples coeff N { d1 with block_pos := d1.block_pos + 1 } xs

/-- The state a freshly constructed detector is in after `resetGoertzel()`:
`Q1 = Q2 = 0`, `block_pos = 0`, `is_activated = 0`, `result = 0`. -/
def initialTD : TDState := ⟨0, 0, 0, 0, 0⟩

/-- Pure Goertzel recurrence over a list of samples starting from the given
register pair, mirroring repeated `processSample` calls. -/
def goertzelQ (coeff : ℚ) (q : ℚ × ℚ) (xs : List ℤ) : ℚ × ℚ :=
  xs.foldl (fun p x => (coeff * p.1 - p.2 + (usample x : ℚ), p.1)) q

/-- The magnitude-squared obtained at the end of a run of samples when the
recurrence starts from the given register pair. -/
def blockMagFrom (coeff : ℚ) (q : ℚ × ℚ) (xs : List ℤ) : ℚ :=
  let p := goertzelQ coeff q xs
  p.1 * p.1 + p.2 * p.2 - p.1 * p.2 * coeff

/-- The magnitude-squared a block of samples produces when the recurrence
starts from a reset state. -/
def blockMag (coeff : ℚ) (xs : List ℤ) : ℚ := blockMagFrom coeff (0, 0) xs

/-- Reference block-level semantics: process a list of complete blocks,
threading the activation counter and the last result through
`activationStep`; each block contributes one `valueChanged` plus its
activation emissions. -/
def blockRun (coeff : ℚ) : ℕ × ℚ → List (List ℤ) → (ℕ × ℚ) × List TDEvent
  | ar, [] => (ar, [])
  | (act, _), c :: cs =>
    let r := blockMag coeff c
    let a := activationStep act r
    let rest := blockRun coeff (a.1, r) cs
    (rest.1, TDEvent.valueChanged r :: a.2 ++ rest.2)

/-- The values of the `activated` emissions of a trace, in order. -/
def actTrace : List TDEvent → List Bool
  | [] => []
  | TDEvent.activated b :: es => b :: actTrace es
  | TDEvent.valueChanged _ :: es => actTrace es

/-- Number of `valueChanged` emissions in a trace. -/
def countVC : List TDEvent → ℕ
  | [] => 0
  | TDEvent.valueChanged _ :: es => countVC es + 1
  | TDEvent.activated _ :: es => countVC es

/-- `altFromB last bs` holds when `bs` strictly alternates and starts with
the negation of `last`. -/
def altFromB : Bool → List Bool → Bool
  | _, [] => true
  | last, b :: bs => (b = !last) && altFromB b bs

/-- A block result counts as below threshold. -/
def lowBlock (coeff : ℚ) (c : List ℤ) : Bool := decide (blockMag coeff c < THRESHOLD)

/-- Whether a list of blocks contains three consecutive below-threshold
blocks. -/
def hasThreeLow (coeff : ℚ) : List (List ℤ) → Bool
  | a :: b :: c :: t =>
    (lowBlock coeff a && lowBlock coeff b && lowBlock coeff c) ||
      hasThreeLow coeff (b :: c :: t)
  | _ => false

/-- The number of leading below-threshold blocks. -/
def leadLow (coeff : ℚ) : List (List ℤ) → ℕ
  | [] => 0
  | c :: cs => if lowBlock coeff c then leadLow coeff cs + 1 else 0

/-! ## Hierarchical state machine (AsyncStateMachine.h)

A concrete state class `T` of the C++ template framework is characterised
by its inheritance chain of type identities, listed most derived first and
ending at the top state type (e.g. `A1` derived from `A` derived from
`Top` is `[A1, A, Top]`).  `typeid(T)` is the head of the chain and
`dynamic_cast<T*>(s) != nullptr` holds exactly when `T` occurs in the
chain of the dynamic type of `s`.  Heap-allocated state objects carry a
fresh allocation id so that the pointer comparisons in
`StateMachine::setState` are modelled faithfully by id comparison. -/

/-- A C++ type identity (`std::type_info`). -/
abbrev TypeId := ℕ

/-- A heap-allocated state object: its allocation id and the inheritance
chain of its concrete type, most derived first. -/
structure StateObj where
  id : ℕ
  chain : List TypeId
deriving DecidableEq, Repr

/-- Observable actions of the state machine framework: the `init`,
`entry`, `exit` hooks, `m_state` installation, `delete` of a state object,
`clearTimeout` and delivery of `timeoutEvent`. -/
inductive Action
  | initAct (t : TypeId)
  | entryAct (t : TypeId)
  | exitAct (t : TypeId)
  | installAct (oid : ℕ)
  | destroyAct (oid : ℕ)
  | clearTimeoutAct
  | timeoutEventAct (t : TypeId)
deriving DecidableEq, Repr

/-- `Async::StateMachine`: the current state pointer (null before
`start()`), the single timer (`Timer m_timer = -1`, initially disabled),
and a fresh-allocation counter used to give each `new` state object a
distinct id. -/
structure Machine where
  cur : Option StateObj
  timerEnabled : Bool
  timerTimeout : Int
  nextId : ℕ
deriving DecidableEq, Repr

/-- The machine as constructed: `m_state = nullptr`, timer disabled. -/
def mkMachine : Machine := ⟨none, false, -1, 0⟩

/-- `StateMachine::clearTimeout`: `m_timer.setEnable(false)`. -/
def clearTimeout (m : Machine) : Machine := { m with timerEnabled := false }

/-- `StateMachine::setTimeout`: `m_timer.setTimeout(ms);
m_timer.setEnable(true)`. -/
def setTimeout (m : Machine) (ms : Int) : Machine :=
  { m with timerTimeout := ms, timerEnabled := true }

/-- Expiry of the machine's timer: the connected lambda asserts
`m_state != nullptr`, dispatches `timeoutEvent` virtually on the active
state and then calls `clearTimeout`.  `none` is returned when the timer is
not running (no event can be delivered); the assertion-failure case with a
null state is also `none`. -/
def timerExpire (m : Machine) : Option (Machine × List Action) :=
  if m.timerEnabled then
    match m.cur with
    | some o => some (clearTimeout m, [Action.timeoutEventAct o.chain.headI])
    | none => none
  else none

/-- `StateBase::exitHandler(to)`, walking one chain (most derived first):
at each level `T`, if `dynamic_cast<T*>(to)` succeeds the recursion stops,
otherwise `ParentT::clearTimeout(); exit(); ParentT::exitHandler(to)`.
Returns the machine (the timer is cleared at each exited level) and the
emitted actions. -/
def exitWalkM (m : Machine) : List TypeId → List TypeId → Machine × List Action
  | [], _ => (m, [])
  | t :: rest, toChain =>
    if t ∈ toChain then (m, [])
    else
      let w := exitWalkM (clearTimeout m) rest toChain
      (w.1, Action.clearTimeoutAct :: Action.exitAct t :: w.2)

/-- `StateBase::entryHandler(from)`, walking one chain (most derived
first): at each level `T`, if `dynamic_cast<T*>(from)` succeeds the
recursion stops, otherwise `ParentT::entryHandler(from); entry()` — so the
entry of a level is emitted after all entries of its ancestors.  A null
`from` is the empty chain. -/
def entryWalk : List TypeId → List TypeId → List Action
  | [], _ => []
  | t :: rest, fromChain =>
    if t ∈ fromChain then []
    else entryWalk rest fromChain ++ [Action.entryAct t]

/-- The `clearTimeout`/`exit` action pairs the exit walk emits for a list
of exited levels, bottom-up. -/
def exitActions : List TypeId → List Action
  | [] => []
  | t :: rest => Action.clearTimeoutAct :: Action.exitAct t :: exitActions rest

/-- The body of `StateMachine::setState` after the identity check: run
`initHandler()` on the candidate (the user `init` body is the parameter
`initB`); if the current state changed during `init`, delete the candidate
and return; otherwise run the exit walk on the old state (when not null),
install the candidate, run the entry walk, and `delete old_state`. -/
def setStateCore (m0 : Machine) (candId : ℕ) (newChain : List TypeId)
    (initB : Machine → Machine × List Action) : Machine × List Action :=
  let i := initB m0
  if i.1.cur ≠ m0.cur then
    (i.1, Action.initAct newChain.headI :: i.2 ++ [Action.destroyAct candId])
  else
    match m0.cur with
    | some o =>
      let w := exitWalkM i.1 o.chain newChain
      ({ w.1 with cur := some ⟨candId, newChain⟩ },
        Action.initAct newChain.headI :: i.2 ++ w.2 ++ [Action.installAct candId]
          ++ entryWalk newChain o.chain ++ [Action.destroyAct o.id])
    | none =>
      ({ i.1 with cur := some ⟨candId, newChain⟩ },
        Action.initAct newChain.headI :: i.2 ++ [Action.installAct candId]
          ++ entryWalk newChain [])

/-- `StateMachine::setState<NewStateT>()`: allocate the candidate (fresh
id), and if the machine has a current state whose type identity equals
`typeid(NewStateT)`, delete the candidate and return; otherwise proceed
with `setStateCore`. -/
def setState (m : Machine) (newChain : List TypeId)
    (initB : Machine → Machine × List Action) : Machine × List Action :=
  let candId := m.nextId
  let m0 : Machine := { m with nextId := m.nextId + 1 }
  match m0.cur with
  | some o =>
    if newChain.head? = o.chain.head? then (m0, [Action.destroyAct candId])
    else setStateCore m0 candId newChain initB
  | none => setStateCore m0 candId newChain initB

/-- `StateMachine::start`: `setState<StateTopT>()`. -/
def start (m : Machine) (topChain : List TypeId)
    (initB : Machine → Machine × List Action) : Machine × List Action :=
  setState m topChain initB

/-- `StateMachine::isActive<T>`: `typeid(T) == m_state->typeId()`.  The
dereference of a null `m_state` (before `start()`) is modelled by
`none`. -/
def isActive (m : Machine) (t : TypeId) : Option Bool :=
  match m.cur with
  | some o => some (decide (o.chain.head? = some t))
  | none => none

/-- `StateMachine::state`: `*m_state`; `none` models the null dereference
before `start()`. -/
def stateOf (m : Machine) : Option StateObj := m.cur

/-! ## AudioSplitter (AsyncAudioSplitter.h)

Only the class declaration of `AudioSplitter` is among the sources; the
member function bodies (`writeSamples`, `writeFromBuffer`, the branch
cleanup) are not.  The write/back-pressure path is therefore modelled from
the design document (§4.2, back-pressure algorithm).  Downstream sinks are
abstracted by the number of samples each branch accepts during a pass. -/

/-- Modelled from the spec: a splitter branch — the `enabled` flag and the
per-branch write cursor into the shared input buffer (the sink reference
and flush bookkeeping play no part in the back-pressure claim). -/
structure SpBranch where
  enabled : Bool
  cursor : ℕ
deriving DecidableEq, Repr

/-- Modelled from the spec: the splitter state relevant to back-pressure —
the branch list, the number of buffered samples `buf_len`, and the
`input_stopped` flag. -/
structure Splitter where
  branches : List SpBranch
  buf_len : ℕ
  input_stopped : Bool
deriving DecidableEq, Repr

/-- Events the splitter sends upstream: the count of samples reported
absorbed by a `writeSamples` call, and `resume_output`. -/
inductive SpEvent
  | absorbed (n : ℕ)
  | resumeOut
deriving DecidableEq, Repr

/-- Modelled from the spec: one `writeFromBuffer` pass over the branches.
`accs` gives, per branch, how many samples its sink accepts this pass;
each enabled branch with `cursor < buf_len` is offered `buf_len - cursor`
samples and its cursor advances by the accepted count (clamped to the
offer). -/
def passBranches (bl : ℕ) : List SpBranch → List ℕ → List SpBranch
  | [], _ => []
  | b :: bs, [] => b :: bs
  | b :: bs, a :: as_ =>
    (if b.enabled ∧ b.cursor < bl then { b with cursor := b.cursor + min a (bl - b.cursor) }
     else b) :: passBranches bl bs as_

/-- Every enabled branch has consumed the whole buffer. -/
def drained (bl : ℕ) (bs : List SpBranch) : Bool :=
  bs.all fun b => !b.enabled || decide (b.cursor = bl)

/-- The minimum cursor over the enabled branches (and `buf_len`, which
bounds every cursor). -/
def minCursor (bl : ℕ) (bs : List SpBranch) : ℕ :=
  bs.foldr (fun b acc => if b.enabled then min b.cursor acc else acc) bl

/-- Modelled from the spec: `writeFromBuffer` — run a pass; if afterwards
every enabled branch has consumed the whole buffer, compact the buffer
(`buf_len = 0`, cursors reset), clear `input_stopped` and, if input was
previously stopped, emit `resume_output` upstream exactly once; otherwise
set `input_stopped`.  Also returns the new minimum-cursor value, the
number of samples the splitter has absorbed from upstream. -/
def writeFromBuffer (s : Splitter) (accs : List ℕ) : Splitter × List SpEvent × ℕ :=
  let bs := passBranches s.buf_len s.branches accs
  if drained s.buf_len bs then
    (⟨bs.map fun b => { b with cursor := 0 }, 0, false⟩,
      (if s.input_stopped then [SpEvent.resumeOut] else []), minCursor s.buf_len bs)
  else
    (⟨bs, s.buf_len, true⟩, [], minCursor s.buf_len bs)

/-- Modelled from the spec: `writeSamples(samples, len)` — append the
`len` new samples to the buffer, run `writeFromBuffer`, and report to
upstream the samples absorbed up to the new minimum cursor. -/
def spWriteSamples (s : Splitter) (len : ℕ) (accs : List ℕ) : Splitter × List SpEvent :=
  let w := writeFromBuffer { s with buf_len := s.buf_len + len } accs
  (w.1, w.2.1 ++ [SpEvent.absorbed w.2.2])

/-- Modelled from the spec: a branch's `resumeOutput` re-enters
`writeFromBuffer`; upstream is woken only via the `resume_output` the pass
itself may emit. -/
def spResume (s : Splitter) (accs : List ℕ) : Splitter × List SpEvent :=
  let w := writeFromBuffer s accs
  (w.1, w.2.1)

/-- An upstream-visible operation on the splitter. -/
inductive SpOp
  | write (len : ℕ) (accs : List ℕ)
  | resume (accs : List ℕ)
deriving DecidableEq, Repr

/-- Apply one operation. -/
def applyOp (s : Splitter) : SpOp → Splitter × List SpEvent
  | SpOp.write len accs => spWriteSamples s len accs
  | SpOp.resume accs => spResume s accs

/-- Run a sequence of operations, collecting all upstream events. -/
def runOps : Splitter → List SpOp → Splitter × List SpEvent
  | s, [] => (s, [])
  | s, op :: ops =>
    let r := applyOp s op
    let rest := runOps r.1 ops
    (rest.1, r.2 ++ rest.2)

/-- Number of `resumeOut` events in a trace. -/
def countResume : List SpEvent → ℕ
  | [] => 0
  | SpEvent.resumeOut :: es => countResume es + 1
  | SpEvent.absorbed _ :: es => countResume es

/-- Number of steps of an operation sequence at which the splitter goes
from input-stopped to not stopped (i.e. fully drained). -/
def countTransitions : Splitter → List SpOp → ℕ
  | _, [] => 0
  | s, op :: ops =>
    let s' := (applyOp s op).1
    (if s.input_stopped ∧ s'.input_stopped = false then 1 else 0) + countTransitions s' ops

/-! ## Lemmas about the tone detector -/

theorem goertzelQ_cons (coeff : ℚ) (q : ℚ × ℚ) (x : ℤ) (xs : List ℤ) :
    goertzelQ coeff q (x :: xs) =
      goertzelQ coeff (coeff * q.1 - q.2 + (usample x : ℚ), q.1) xs := by
  simp [goertzelQ]

theorem processSamples_block (coeff : ℚ) (N : ℕ) (d : TDState) (xs ys : List ℤ)
    (h : d.block_pos + xs.length = N) (hne : xs ≠ []) :
    processSamples coeff N d (xs ++ ys) =
      ((processSamples coeff N
          ⟨0, 0, 0, (activationStep d.is_activated (blockMagFrom coeff (d.Q1, d.Q2) xs)).1,
            blockMagFrom coeff (d.Q1, d.Q2) xs⟩ ys).1,
        TDEvent.valueChanged (blockMagFrom coeff (d.Q1, d.Q2) xs)
          :: (activationStep d.is_activated (blockMagFrom coeff (d.Q1, d.Q2) xs)).2
          ++ (processSamples coeff N
              ⟨0, 0, 0, (activationStep d.is_activated (blockMagFrom coeff (d.Q1, d.Q2) xs)).1,
                blockMagFrom coeff (d.Q1, d.Q2) xs⟩ ys).2) := by
  induction xs generalizing d with
  | nil => exact absurd rfl hne
  | cons x xs ih =>
    cases xs with
    | nil =>
      simp only [List.length_cons, List.length_nil] at h
      simp only [List.cons_append, List.nil_append, processSamples, processSample, blockEnd,
        getMagnitudeSquared, blockMagFrom, goertzelQ, List.foldl]
      rw [if_pos (by omega : N ≤ d.block_pos + 1)]
      simp
    | cons x' xs' =>
      have hb : ¬ N ≤ (processSample coeff d x).block_pos + 1 := by
        simp only [processSample]
        simp only [List.length_cons] at h
        omega
      have hstep :
          processSamples coeff N d ((x :: x' :: xs') ++ ys) =
            processSamples coeff N
              { processSample coeff d x with
                block_pos := (processSample coeff d x).block_pos + 1 } ((x' :: xs') ++ ys) := by
        simp only [List.cons_append, processSamples, if_neg hb]
      rw [hstep, ih]
      · simp only [processSample, blockMagFrom, goertzelQ, List.foldl]
      · simp only [processSample, List.length_cons]
        simp only [List.length_cons] at h
        omega
      · simp

theorem processSamples_join (coeff : ℚ) (N : ℕ) (hN : 1 ≤ N) (act : ℕ) (res : ℚ)
    (cs : List (List ℤ)) (hcs : ∀ c ∈ cs, c.length = N) :
    processSamples coeff N ⟨0, 0, 0, act, res⟩ cs.flatten =
      (⟨0, 0, 0, (blockRun coeff (act, res) cs).1.1, (blockRun coeff (act, res) cs).1.2⟩,
        (blockRun coeff (act, res) cs).2) := by
  induction cs generalizing act res with
  | nil => simp [processSamples, blockRun]
  | cons c cs ih =>
    have hc : c.length = N := hcs c (List.mem_cons_self c cs)
    have hne : c ≠ [] := by
      intro hcontra
      rw [hcontra] at hc
      simp at hc
      omega
    have hrest : ∀ c' ∈ cs, c'.length = N := fun c' hc' => hcs c' (List.mem_cons_of_mem c hc')
    have hjoin : (c :: cs).flatten = c ++ cs.flatten := by simp [List.flatten]
    rw [hjoin, processSamples_block coeff N ⟨0, 0, 0, act, res⟩ c cs.flatten (by simpa using hc) hne]
    simp only [blockRun, blockMag]
    rw [ih (activationStep act (blockMagFrom coeff (0, 0) c)).1 (blockMagFrom coeff (0, 0) c) hrest]

theorem countVC_append (l1 l2 : List TDEvent) :
    countVC (l1 ++ l2) = countVC l1 + countVC l2 := by
  induction l1 with
  | nil => simp [countVC]
  | cons e es ih =>
    cases e with
    | valueChanged r =>
      simp [countVC, ih]
      omega
    | activated b => simp [countVC, ih]

theorem countVC_activationStep (act : ℕ) (r : ℚ) : countVC (activationStep act r).2 = 0 := by
  simp only [activationStep]
  split_ifs <;> simp [countVC]

theorem countVC_blockRun (coeff : ℚ) (ar : ℕ × ℚ) (cs : List (List ℤ)) :
    countVC (blockRun coeff ar cs).2 = cs.length := by
  induction cs generalizing ar with
  | nil => simp [blockRun, countVC]
  | cons c cs ih =>
    obtain ⟨act, res⟩ := ar
    simp [blockRun, countVC, countVC_append, countVC_activationStep, ih]

theorem actTrace_append (l1 l2 : List TDEvent) :
    actTrace (l1 ++ l2) = actTrace l1 ++ actTrace l2 := by
  induction l1 with
  | nil => simp [actTrace]
  | cons e es ih => cases e <;> simp [actTrace, ih]

theorem alt_invariant (coeff : ℚ) (N : ℕ) (xs : List ℤ) :
    ∀ (d : TDState) (last : Bool), (0 < d.is_activated ↔ last = true) →
      altFromB last (actTrace (processSamples coeff N d xs).2) = true := by
  induction xs with
  | nil =>
    intro d last _
    simp [processSamples, actTrace, altFromB]
  | cons x xs ih =>
    intro d last hinv
    simp only [processSamples]
    by_cases hb : N ≤ (processSample coeff d x).block_pos + 1
    · rw [if_pos hb]
      simp only [blockEnd, actTrace_append, actTrace, List.cons_append]
      have hact : (processSample coeff d x).is_activated = d.is_activated := rfl
      rw [hact]
      by_cases hT : THRESHOLD ≤ getMagnitudeSquared coeff (processSample coeff d x)
      · by_cases ha0 : d.is_activated = 0
        · have hlast : last = false := by
            rcases hinv with ⟨h1, h2⟩
            cases last with
            | false => rfl
            | true => exact absurd (h2 rfl) (by omega)
          simp only [activationStep, if_pos hT, if_pos ha0, hlast, actTrace, altFromB]
          simp only [Bool.not_false, List.nil_append]
          refine (Bool.and_eq_true _ _).mpr ⟨by simp, ?_⟩
          exact ih _ true (by simp)
        · have hlast : last = true := hinv.mp (by omega)
          simp only [activationStep, if_pos hT, if_neg ha0, hlast, actTrace, List.nil_append]
          exact ih _ true (by simp)
      · have hlt : getMagnitudeSquared coeff (processSample coeff d x) < THRESHOLD :=
          not_le.mp hT
        by_cases ha : 0 < d.is_activated
        · have hlast : last = true := hinv.mp ha
          by_cases h1 : d.is_activated = 1
          · simp only [activationStep, if_neg hT, if_pos (And.intro ha hlt), if_pos h1, hlast,
              actTrace, altFromB]
            simp only [Bool.not_true, List.nil_append]
            refine (Bool.and_eq_true _ _).mpr ⟨by simp, ?_⟩
            exact ih _ false (by simp [h1])
          · simp only [activationStep, if_neg hT, if_pos (And.intro ha hlt), if_neg h1, hlast,
              actTrace, List.nil_append]
            exact ih _ true (by simp; omega)
        · have hlast : last = false := by
            cases last with
            | false => rfl
            | true => exact absurd (hinv.mpr rfl) ha
          have hcond : ¬ (0 < d.is_activated ∧
              getMagnitudeSquared coeff (processSample coeff d x) < THRESHOLD) := by
            intro hc
            exact ha hc.1
          simp only [activationStep, if_neg hT, if_neg hcond, hlast, actTrace, List.nil_append]
          exact ih _ false (by simpa using ha)
    · rw [if_neg hb]
      exact ih _ last hinv

theorem hasThreeLow_tail (coeff : ℚ) (c : List ℤ) (cs : List (List ℤ))
    (h : hasThreeLow coeff (c :: cs) = false) : hasThreeLow coeff cs = false := by
  cases cs with
  | nil => simp [hasThreeLow]
  | cons b cs1 =>
    cases cs1 with
    | nil => simp [hasThreeLow]
    | cons c2 t =>
      simp only [hasThreeLow, Bool.or_eq_false_iff] at h
      exact h.2

theorem leadLow_le_two (coeff : ℚ) (cs : List (List ℤ))
    (h : hasThreeLow coeff cs = false) : leadLow coeff cs ≤ 2 := by
  cases cs with
  | nil => simp [leadLow]
  | cons a cs1 =>
    cases cs1 with
    | nil =>
      simp only [leadLow]
      split <;> simp [leadLow]
    | cons b cs2 =>
      cases cs2 with
      | nil =>
        by_cases hla : lowBlock coeff a
        · by_cases hlb : lowBlock coeff b
          · simp [leadLow, hla, hlb]
          · simp [leadLow, hla, hlb]
        · simp [leadLow, hla]
      | cons c t =>
        simp only [hasThreeLow, Bool.or_eq_false_iff, Bool.and_eq_false_iff] at h
        by_cases hla : lowBlock coeff a
        · by_cases hlb : lowBlock coeff b
          · have hlc : lowBlock coeff c = false := by
              rcases h.1 with h' | h'
              · rcases h' with h' | h'
                · exact absurd hla (by simp [h'])
                · exact absurd hlb (by simp [h'])
              · exact h'
            simp [leadLow, hla, hlb, hlc]
          · simp [leadLow, hla, hlb]
        · simp [leadLow, hla]

theorem blockRun_const_low (coeff : ℚ) (c : List ℤ)
    (hlow : blockMag coeff c < THRESHOLD) (k : ℕ) :
    ∀ res : ℚ,
      (blockRun coeff (0, res) (List.replicate k c)).2
          = List.replicate k (TDEvent.valueChanged (blockMag coeff c))
        ∧ (blockRun coeff (0, res) (List.replicate k c)).1.1 = 0 := by
  induction k with
  | zero => intro res; simp [blockRun]
  | succ k ih =>
    intro res
    have hstep : activationStep 0 (blockMag coeff c) = (0, []) := by
      simp only [activationStep, if_neg (not_le.mpr hlow)]
      norm_num
    simp [List.replicate, blockRun, hstep, ih (blockMag coeff c)]

theorem replicate_flatten (N k : ℕ) :
    (List.replicate k (List.replicate N (0 : ℤ))).flatten = List.replicate (k * N) 0 := by
  induction k with
  | zero => simp
  | succ k ih =>
    have hmul : (k + 1) * N = N + k * N := by ring
    rw [List.replicate_succ, List.flatten_cons, ih, hmul, List.replicate_add]

theorem blockRun_noThree (coeff : ℚ) (cs : List (List ℤ)) :
    ∀ (act : ℕ) (res : ℚ), leadLow coeff cs < act → hasThreeLow coeff cs = false →
      (false ∉ actTrace (blockRun coeff (act, res) cs).2
        ∧ 0 < (blockRun coeff (act, res) cs).1.1) := by
  induction cs with
  | nil =>
    intro act res hlt _
    exact ⟨by simp [blockRun, actTrace], by simpa [blockRun] using (by simpa [leadLow] using hlt)⟩
  | cons c cs ih =>
    intro act res hlt h3
    have h3' := hasThreeLow_tail coeff c cs h3
    by_cases hlc : lowBlock coeff c = true
    · have hr : blockMag coeff c < THRESHOLD := by simpa [lowBlock] using hlc
      have hlead : leadLow coeff (c :: cs) = leadLow coeff cs + 1 := by
        simp [leadLow, hlc]
      rw [hlead] at hlt
      have hstep : activationStep act (blockMag coeff c) = (act - 1, []) := by
        simp only [activationStep, if_neg (not_le.mpr hr)]
        rw [if_pos (And.intro (by omega) hr), if_neg (by omega : ¬ act = 1)]
      have hih := ih (act - 1) (blockMag coeff c) (by omega) h3'
      exact ⟨by simpa [blockRun, hstep, actTrace] using hih.1,
        by simpa [blockRun, hstep] using hih.2⟩
    · have hr : THRESHOLD ≤ blockMag coeff c := by
        by_contra hcon
        exact hlc (by simpa [lowBlock] using not_le.mp hcon)
      have hlead : leadLow coeff (c :: cs) = 0 := by
        simp [leadLow, hlc]
      rw [hlead] at hlt
      have hstep : activationStep act (blockMag coeff c) = (3, []) := by
        simp only [activationStep, if_pos hr]
        rw [if_neg (by omega : ¬ act = 0)]
      have hl2 : leadLow coeff cs ≤ 2 := leadLow_le_two coeff cs h3'
      have hih := ih 3 (blockMag coeff c) (by omega) h3'
      exact ⟨by simpa [blockRun, hstep, actTrace] using hih.1,
        by simpa [blockRun, hstep] using hih.2⟩

theorem countVC_replicate (r : ℚ) (k : ℕ) :
    countVC (List.replicate k (TDEvent.valueChanged r)) = k := by
  induction k with
  | zero => simp [countVC]
  | succ k ih => simp [List.replicate, countVC, ih]

/-! ## Claim theorems: tone detector -/

/-- Claim C2, counterexample.  The claim states that an all-zero input of
length `k*N` makes the detector emit `value_changed(0)` events with result
equal to `0`.  For the configuration `tone_hz = 2000`, `base_N = 5` the
constructor's coefficient `2*cos(2*pi*k/N)` with `k = N*tone/8000` is
exactly `2*cos(pi/2) = 0`, and feeding one all-zero block of 5 samples
emits `value_changed(16384)`: a zero PCM sample is converted to the code
`(0 + 0x8000) >> 8 = 128`, so silence drives the recurrence with a
non-zero constant and the block magnitude is not `0`. -/
theorem tone_silence_zero_counterexample :
    (2 * Real.cos (2 * Real.pi * ((5 : ℝ) * 2000 / 8000) / 5) = 0)
      ∧ (processSamples 0 5 initialTD (List.replicate 5 0)).2
          = [TDEvent.valueChanged 16384]
      ∧ (16384 : ℚ) ≠ 0 := by
  refine ⟨?_, ?_, by norm_num⟩
  · have harg : 2 * Real.pi * ((5 : ℝ) * 2000 / 8000) / 5 = Real.pi / 2 := by ring
    rw [harg, Real.cos_pi_div_two, mul_zero]
  · norm_num [processSamples, processSample, blockEnd, getMagnitudeSquared, activationStep,
      usample, initialTD, THRESHOLD, List.replicate]

/-- Claim C2, amended: feeding the freshly constructed detector an
all-zero input of length `k*N` emits exactly `k` `value_changed(r0)`
events, where `r0` is the block magnitude of the constant code 128 that a
zero sample is converted to (not `0` in general), and no `activated`
events, provided `r0` is below the threshold. -/
theorem tone_silence_events (coeff : ℚ) (N k : ℕ) (hN : 1 ≤ N)
    (hlow : blockMag coeff (List.replicate N 0) < THRESHOLD) :
    (processSamples coeff N initialTD (List.replicate (k * N) 0)).2
        = List.replicate k (TDEvent.valueChanged (blockMag coeff (List.replicate N 0)))
      ∧ countVC (processSamples coeff N initialTD (List.replicate (k * N) 0)).2 = k
      ∧ ∀ b, TDEvent.activated b ∉
          (processSamples coeff N initialTD (List.replicate (k * N) 0)).2 := by
  have hchunks : ∀ c ∈ List.replicate k (List.replicate N (0 : ℤ)), c.length = N := by
    intro c hc
    rw [List.eq_of_mem_replicate hc]
    simp
  have hbridge := processSamples_join coeff N hN 0 0
    (List.replicate k (List.replicate N 0)) hchunks
  have hbr := blockRun_const_low coeff (List.replicate N 0) hlow k 0
  have htr : (processSamples coeff N initialTD (List.replicate (k * N) 0)).2
      = List.replicate k (TDEvent.valueChanged (blockMag coeff (List.replicate N 0))) := by
    rw [← replicate_flatten N k]
    show (processSamples coeff N ⟨0, 0, 0, 0, 0⟩
        (List.replicate k (List.replicate N (0 : ℤ))).flatten).2 = _
    rw [hbridge]
    exact hbr.1
  refine ⟨htr, ?_, ?_⟩
  · rw [htr]
    exact countVC_replicate _ k
  · intro b hmem
    rw [htr] at hmem
    exact absurd (List.eq_of_mem_replicate hmem) (by simp)

/-- Witness for the amended claim C2 at `coeff = 0`, `N = 5`, `k = 2`:
two `value_changed(16384)` events and no `activated` events. -/
theorem tone_silence_events_witness :
    (processSamples 0 5 initialTD (List.replicate 10 0)).2
        = List.replicate 2 (TDEvent.valueChanged 16384)
      ∧ countVC (processSamples 0 5 initialTD (List.replicate 10 0)).2 = 2 := by
  have hm : blockMag 0 (List.replicate 5 0) = 16384 := by
    norm_num [blockMag, blockMagFrom, goertzelQ, usample, List.replicate]
  have h := tone_silence_events 0 5 2 (by norm_num)
    (by rw [hm]; norm_num [THRESHOLD])
  have h10 : (2 * 5 : ℕ) = 10 := by norm_num
  rw [h10, hm] at h
  exact ⟨h.1, h.2.1⟩

/-- Claim C3: at every block boundary the activation logic behaves as
specified (activation emits `activated(true)` iff the counter was `0` and
sets it to `3`; below threshold the positive counter is decremented and
`activated(false)` is emitted iff it reaches `0`); the `activated`
emissions of any run from the initial state strictly alternate starting
with `true`; and from a just-activated state (counter `3`) no
`activated(false)` is emitted unless the block sequence contains three
consecutive below-threshold blocks. -/
theorem tone_activation_hysteresis :
    (∀ (coeff : ℚ) (N act : ℕ) (res : ℚ) (c : List ℤ), 1 ≤ N → c.length = N →
      (processSamples coeff N ⟨0, 0, 0, act, res⟩ c).2
          = TDEvent.valueChanged (blockMag coeff c)
              :: (if THRESHOLD ≤ blockMag coeff c then
                    (if act = 0 then [TDEvent.activated true] else [])
                  else if 0 < act then
                    (if act = 1 then [TDEvent.activated false] else [])
                  else [])
        ∧ (processSamples coeff N ⟨0, 0, 0, act, res⟩ c).1.is_activated
            = (if THRESHOLD ≤ blockMag coeff c then 3
               else if 0 < act then act - 1 else act))
    ∧ (∀ (coeff : ℚ) (N : ℕ) (xs : List ℤ),
        altFromB false (actTrace (processSamples coeff N initialTD xs).2) = true)
    ∧ (∀ (coeff : ℚ) (N : ℕ) (res : ℚ) (cs : List (List ℤ)), 1 ≤ N →
        (∀ c ∈ cs, c.length = N) → hasThreeLow coeff cs = false →
        false ∉ actTrace (processSamples coeff N ⟨0, 0, 0, 3, res⟩ cs.flatten).2) := by
  refine ⟨?_, ?_, ?_⟩
  · intro coeff N act res c hN hc
    have hone : ∀ c' ∈ ([c] : List (List ℤ)), c'.length = N := by
      intro c' hc'
      simp at hc'
      rw [hc']
      exact hc
    have hb := processSamples_join coeff N hN act res [c] hone
    have hfl : ([c] : List (List ℤ)).flatten = c := by simp
    rw [hfl] at hb
    rw [hb]
    constructor
    · show TDEvent.valueChanged (blockMag coeff c) :: (activationStep act (blockMag coeff c)).2
          ++ [] = _
      rw [List.append_nil]
      by_cases hT : THRESHOLD ≤ blockMag coeff c
      · by_cases h0 : act = 0 <;>
          simp [activationStep, hT, h0]
      · have hlt : blockMag coeff c < THRESHOLD := not_le.mp hT
        by_cases hpos : 0 < act
        · by_cases h1 : act = 1 <;>
            simp [activationStep, hT, hlt, hpos, h1]
        · simp [activationStep, hT, hlt, hpos, Nat.eq_zero_of_not_pos hpos]
    · show (activationStep act (blockMag coeff c)).1 = _
      by_cases hT : THRESHOLD ≤ blockMag coeff c
      · simp [activationStep, hT]
      · have hlt : blockMag coeff c < THRESHOLD := not_le.mp hT
        by_cases hpos : 0 < act
        · simp [activationStep, hT, hlt, hpos]
        · simp [activationStep, hT, hlt, hpos]
  · intro coeff N xs
    exact alt_invariant coeff N xs initialTD false (by simp [initialTD])
  · intro coeff N res cs hN hcs h3
    have hb := processSamples_join coeff N hN 3 res cs hcs
    rw [hb]
    have hlead : leadLow coeff cs < 3 := by
      have := leadLow_le_two coeff cs h3
      omega
    exact (blockRun_noThree coeff cs 3 res hlead h3).1

/-- Witness for claim C3: a single above-threshold block (`coeff = 2`,
`N = 9`, nine full-scale samples, block magnitude `2295^2 = 5267025`)
activates from counter `0`; alternation and the no-deactivation property
instantiated on that block. -/
theorem tone_activation_hysteresis_witness :
    (processSamples 2 9 ⟨0, 0, 0, 0, 0⟩ (List.replicate 9 32767)).2
        = [TDEvent.valueChanged (blockMag 2 (List.replicate 9 32767)), TDEvent.activated true]
      ∧ altFromB false (actTrace (processSamples 2 9 initialTD (List.replicate 9 32767)).2) = true
      ∧ false ∉ actTrace (processSamples 2 9 ⟨0, 0, 0, 3, 0⟩
          ([List.replicate 9 32767] : List (List ℤ)).flatten).2 := by
  have hmag : blockMag 2 (List.replicate 9 32767) = 5267025 := by
    norm_num [blockMag, blockMagFrom, goertzelQ, usample, List.replicate]
  refine ⟨?_, ?_, ?_⟩
  · have h := (tone_activation_hysteresis.1 2 9 0 0 (List.replicate 9 32767)
      (by norm_num) (by simp)).1
    rw [h, if_pos (by rw [hmag]; norm_num [THRESHOLD]), if_pos rfl]
  · exact tone_activation_hysteresis.2.1 2 9 (List.replicate 9 32767)
  · exact tone_activation_hysteresis.2.2 2 9 0 [List.replicate 9 32767] (by norm_num)
      (by intro c hc; simp at hc; simp [hc])
      (by simp [hasThreeLow])

/-- Claim C7: on input consisting of whole blocks of length `N`, the
detector emits exactly one `value_changed` per block regardless of the
activation counter, the emitted value of each block being
`Q1*Q1 + Q2*Q2 - Q1*Q2*coeff` of the recurrence over that block (the
`blockRun` trace), and after the run the recurrence registers and the
block position are reset so consecutive blocks are independent. -/
theorem tone_block_events (coeff : ℚ) (N act : ℕ) (res : ℚ) (cs : List (List ℤ))
    (hN : 1 ≤ N) (hcs : ∀ c ∈ cs, c.length = N) :
    processSamples coeff N ⟨0, 0, 0, act, res⟩ cs.flatten
        = (⟨0, 0, 0, (blockRun coeff (act, res) cs).1.1, (blockRun coeff (act, res) cs).1.2⟩,
            (blockRun coeff (act, res) cs).2)
      ∧ countVC (processSamples coeff N ⟨0, 0, 0, act, res⟩ cs.flatten).2 = cs.length
      ∧ (processSamples coeff N ⟨0, 0, 0, act, res⟩ cs.flatten).1.Q1 = 0
      ∧ (processSamples coeff N ⟨0, 0, 0, act, res⟩ cs.flatten).1.Q2 = 0
      ∧ (processSamples coeff N ⟨0, 0, 0, act, res⟩ cs.flatten).1.block_pos = 0 := by
  have hmain := processSamples_join coeff N hN act res cs hcs
  refine ⟨hmain, ?_, by rw [hmain], by rw [hmain], by rw [hmain]⟩
  rw [hmain]
  exact countVC_blockRun coeff (act, res) cs

/-- Witness for claim C7 at `coeff = 0`, `N = 2`, two blocks of zeros:
exactly two `value_changed` events and a reset final state. -/
theorem tone_block_events_witness :
    countVC (processSamples 0 2 ⟨0, 0, 0, 1, 0⟩
        ([[0, 0], [0, 0]] : List (List ℤ)).flatten).2 = 2
      ∧ (processSamples 0 2 ⟨0, 0, 0, 1, 0⟩
          ([[0, 0], [0, 0]] : List (List ℤ)).flatten).1.block_pos = 0 := by
  have h := tone_block_events 0 2 1 0 [[0, 0], [0, 0]] (by norm_num)
    (by intro c hc; simp at hc; simp [hc])
  exact ⟨h.2.1, h.2.2.2.2⟩

/-- Claim C8: a sample `x` in the 16-bit signed PCM range is converted to
the code `u = ((int)x + 0x8000) >> 8`, which lies in `[0, 255]` (so the
`unsigned char` conversion in the source does not truncate), and the
per-sample update is exactly `Q0 = coeff*Q1 - Q2 + u; Q2 <- Q1;
Q1 <- Q0`. -/
theorem tone_sample_conversion (coeff : ℚ) (d : TDState) (x : ℤ)
    (hlo : -32768 ≤ x) (hhi : x ≤ 32767) :
    usample x = (x + 32768) / 256
      ∧ 0 ≤ usample x ∧ usample x ≤ 255
      ∧ processSample coeff d x
          = ⟨coeff * d.Q1 - d.Q2 + (usample x : ℚ), d.Q1, d.block_pos,
              d.is_activated, d.result⟩ := by
  refine ⟨?_, ?_, ?_, ?_⟩
  · unfold usample
    omega
  · unfold usample
    omega
  · unfold usample
    omega
  · cases d
    rfl

/-- Witness for claim C8 at `x = 0` and at the extreme inputs. -/
theorem tone_sample_conversion_witness :
    usample 0 = 128 ∧ usample (-32768) = 0 ∧ usample 32767 = 255
      ∧ processSample 1 initialTD 0 = ⟨128, 0, 0, 0, 0⟩ := by
  have h0 := tone_sample_conversion 1 initialTD 0 (by norm_num) (by norm_num)
  have hlo := tone_sample_conversion 1 initialTD (-32768) (by norm_num) (by norm_num)
  have hhi := tone_sample_conversion 1 initialTD 32767 (by norm_num) (by norm_num)
  refine ⟨?_, ?_, ?_, ?_⟩
  · rw [h0.1]
    decide
  · rw [hlo.1]
    decide
  · rw [hhi.1]
    decide
  · rw [h0.2.2.2]
    have hu : usample 0 = 128 := by
      rw [h0.1]
      decide
    simp only [initialTD, hu]
    norm_num

/-! ## Lemmas about the state machine -/

theorem clearTimeout_idem (m : Machine) : clearTimeout (clearTimeout m) = clearTimeout m := rfl

theorem exitWalkM_timer_false (toChain : List TypeId) (c : List TypeId) :
    ∀ m : Machine, m.timerEnabled = false → (exitWalkM m c toChain).1.timerEnabled = false := by
  induction c with
  | nil =>
    intro m hm
    simpa [exitWalkM] using hm
  | cons t rest ih =>
    intro m hm
    by_cases ht : t ∈ toChain
    · simpa [exitWalkM, ht] using hm
    · simp only [exitWalkM, if_neg ht]
      exact ih (clearTimeout m) rfl

theorem exitWalkM_eq (b' p : List TypeId) :
    ∀ (a' : List TypeId) (m : Machine), (∀ t ∈ a', t ∉ b' ++ p) →
      exitWalkM m (a' ++ p) (b' ++ p) =
        ((if a' = [] then m else clearTimeout m), exitActions a') := by
  intro a'
  induction a' with
  | nil =>
    intro m _
    cases p with
    | nil => simp [exitWalkM, exitActions]
    | cons ph pt =>
      have hmem : ph ∈ b' ++ ph :: pt := List.mem_append_right b' (List.mem_cons_self ph pt)
      simp [exitWalkM, hmem, exitActions]
  | cons t a'' ih =>
    intro m hdisj
    have ht : t ∉ b' ++ p := hdisj t (List.mem_cons_self t a'')
    have hrest : ∀ s ∈ a'', s ∉ b' ++ p := fun s hs => hdisj s (List.mem_cons_of_mem t hs)
    have hrw := ih (clearTimeout m) hrest
    simp only [List.cons_append, exitWalkM, if_neg ht, hrw]
    by_cases ha : a'' = []
    · subst ha
      simp only [List.nil_append] at hrw
      simp [hrw, exitActions]
    · rw [if_neg ha] at hrw
      simp [hrw, exitActions, ha, clearTimeout_idem]

theorem entryWalk_eq (a' p : List TypeId) :
    ∀ b' : List TypeId, (∀ t ∈ b', t ∉ a' ++ p) →
      entryWalk (b' ++ p) (a' ++ p) = b'.reverse.map Action.entryAct := by
  intro b'
  induction b' with
  | nil =>
    intro _
    cases p with
    | nil => simp [entryWalk]
    | cons ph pt =>
      have hmem : ph ∈ a' ++ ph :: pt := List.mem_append_right a' (List.mem_cons_self ph pt)
      simp [entryWalk, hmem]
  | cons t b'' ih =>
    intro hdisj
    have ht : t ∉ a' ++ p := hdisj t (List.mem_cons_self t b'')
    have hrest : ∀ s ∈ b'', s ∉ a' ++ p := fun s hs => hdisj s (List.mem_cons_of_mem t hs)
    simp only [List.cons_append, entryWalk, if_neg ht, List.append_eq]
    rw [ih hrest]
    simp

theorem exitAct_mem_exitActions (t : TypeId) (l : List TypeId) :
    Action.exitAct t ∈ exitActions l ↔ t ∈ l := by
  induction l with
  | nil => simp [exitActions]
  | cons s rest ih => simp [exitActions, ih]

theorem entryAct_mem_map (t : TypeId) (l : List TypeId) :
    Action.entryAct t ∈ l.map Action.entryAct ↔ t ∈ l := by
  simp

/-! ## Claim theorems: state machine -/

/-- Claim C1: a transition from an active state with chain `a' ++ p` to a
different state with chain `b' ++ p` (where `p` is the shared part of the
chains up to the nearest common ancestor, and the parts strictly below it
are disjoint from the other chain) whose `init` does not redirect runs, in
order: `init` on the candidate, `exit` (with the timeout clear) on each
level of `a'` bottom-up, installation of the new state, `entry` on each
level of `b'` top-down, and only then the destruction of the old state
object; levels in `p` receive neither `exit` nor `entry`. -/
theorem hfsm_transition_symmetry (m m1 : Machine) (oid : ℕ) (a' b' p : List TypeId)
    (initB : Machine → Machine × List Action) (tr1 : List Action)
    (hcur : m.cur = some ⟨oid, a' ++ p⟩)
    (hhead : (b' ++ p).head? ≠ (a' ++ p).head?)
    (hdisjA : ∀ t ∈ a', t ∉ b' ++ p)
    (hdisjB : ∀ t ∈ b', t ∉ a' ++ p)
    (hinit : initB { m with nextId := m.nextId + 1 } = (m1, tr1))
    (hnored : m1.cur = m.cur) :
    setState m (b' ++ p) initB =
      ({ (if a' = [] then m1 else clearTimeout m1) with cur := some ⟨m.nextId, b' ++ p⟩ },
        Action.initAct (b' ++ p).headI :: tr1
          ++ exitActions a' ++ [Action.installAct m.nextId]
          ++ b'.reverse.map Action.entryAct ++ [Action.destroyAct oid])
      ∧ (∀ t ∈ p, Action.exitAct t ∉ exitActions a'
          ∧ Action.entryAct t ∉ b'.reverse.map Action.entryAct) := by
  obtain ⟨mc, mte, mtt, mnid⟩ := m
  have hmc : mc = some ⟨oid, a' ++ p⟩ := hcur
  subst hmc
  have hinit2 : initB ⟨some ⟨oid, a' ++ p⟩, mte, mtt, mnid + 1⟩ = (m1, tr1) := hinit
  have hnored2 : m1.cur = some ⟨oid, a' ++ p⟩ := hnored
  constructor
  · simp only [setState]
    rw [if_neg hhead]
    simp only [setStateCore, hinit2]
    rw [if_neg (by simp [hnored2])]
    rw [exitWalkM_eq b' p a' m1 hdisjA, entryWalk_eq a' p b' hdisjB]
  · intro t htp
    constructor
    · rw [exitAct_mem_exitActions]
      intro hta
      exact hdisjA t hta (List.mem_append_right b' htp)
    · rw [entryAct_mem_map, List.mem_reverse]
      intro htb
      exact hdisjB t htb (List.mem_append_right a' htp)

/-- Witness for claim C1: from active chain `[3, 2, 1]` to `[5, 4, 1]`
(common ancestor `1`): exits `3, 2` bottom-up, install, entries `4, 5`
top-down, destroy of the old object last, with the trivial `init`. -/
theorem hfsm_transition_symmetry_witness :
    setState ⟨some ⟨0, [3, 2, 1]⟩, false, -1, 1⟩ [5, 4, 1] (fun mm => (mm, [])) =
      (⟨some ⟨1, [5, 4, 1]⟩, false, -1, 2⟩,
        [Action.initAct 5, Action.clearTimeoutAct, Action.exitAct 3, Action.clearTimeoutAct,
          Action.exitAct 2, Action.installAct 1, Action.entryAct 4, Action.entryAct 5,
          Action.destroyAct 0]) := by
  have h := (hfsm_transition_symmetry ⟨some ⟨0, [3, 2, 1]⟩, false, -1, 1⟩
    ⟨some ⟨0, [3, 2, 1]⟩, false, -1, 2⟩ 0 [3, 2] [5, 4] [1] (fun mm => (mm, [])) []
    rfl (by decide) (by decide) (by decide) rfl rfl).1
  rw [show ([5, 4] : List TypeId) ++ [1] = [5, 4, 1] from rfl] at h
  rw [h]
  decide

/-- Claim C4: when the identity check passes, `init` runs on the candidate
first (the trace starts with it, before any exit or entry handler); and if
the candidate's `init` changes the machine's current state (a nested
`set_state`), the candidate is deleted and the transition returns at once:
no exit/entry handler of the outer transition runs, the candidate is never
installed, and the nested transition's result remains the current
state. -/
theorem hfsm_init_redirect (m m1 : Machine) (newChain : List TypeId)
    (initB : Machine → Machine × List Action) (tr1 : List Action)
    (hid : ∀ o, m.cur = some o → newChain.head? ≠ o.chain.head?)
    (hinit : initB { m with nextId := m.nextId + 1 } = (m1, tr1))
    (hred : m1.cur ≠ m.cur) :
    setState m newChain initB =
        (m1, Action.initAct newChain.headI :: tr1 ++ [Action.destroyAct m.nextId])
      ∧ (setState m newChain initB).2.head? = some (Action.initAct newChain.headI)
      ∧ (setState m newChain initB).1.cur = m1.cur := by
  obtain ⟨mc, mte, mtt, mnid⟩ := m
  have hinit2 : initB ⟨mc, mte, mtt, mnid + 1⟩ = (m1, tr1) := hinit
  have hred2 : m1.cur ≠ mc := hred
  have hmain : setState ⟨mc, mte, mtt, mnid⟩ newChain initB =
      (m1, Action.initAct newChain.headI :: tr1 ++ [Action.destroyAct mnid]) := by
    cases mc with
    | none =>
      simp only [setState, setStateCore, hinit2]
      rw [if_pos hred2]
    | some o =>
      simp only [setState]
      rw [if_neg (hid o rfl)]
      simp only [setStateCore, hinit2]
      rw [if_pos hred2]
  exact ⟨hmain, by simp [hmain], by simp [hmain]⟩

/-- Witness for claim C4: from chain `[2, 1]` a transition to `[6, 1]`
whose `init` immediately redirects to `[7, 1]`: the nested transition
takes over (exit of `2`, install of the `[7, 1]` object, entry of `7`),
the `[6, 1]` candidate is deleted, and no further handlers run. -/
theorem hfsm_init_redirect_witness :
    setState ⟨some ⟨0, [2, 1]⟩, false, -1, 1⟩ [6, 1]
        (fun mm => setState mm [7, 1] (fun x => (x, []))) =
      (⟨some ⟨2, [7, 1]⟩, false, -1, 3⟩,
        [Action.initAct 6, Action.initAct 7, Action.clearTimeoutAct, Action.exitAct 2,
          Action.installAct 2, Action.entryAct 7, Action.destroyAct 0, Action.destroyAct 1]) := by
  have h := (hfsm_init_redirect ⟨some ⟨0, [2, 1]⟩, false, -1, 1⟩
    ⟨some ⟨2, [7, 1]⟩, false, -1, 3⟩ [6, 1]
    (fun mm => setState mm [7, 1] (fun x => (x, [])))
    [Action.initAct 7, Action.clearTimeoutAct, Action.exitAct 2, Action.installAct 2,
      Action.entryAct 7, Action.destroyAct 0]
    (by decide) (by decide) (by decide)).1
  rw [h]
  decide

/-- Claim C5: `set_state<Current>()` while the current state has type
`Current` (equal head type identity) is a no-op: the candidate is
discarded, no `init`, `entry` or `exit` handler is invoked, and the
current state object is unchanged. -/
theorem hfsm_identity_noop (m : Machine) (o : StateObj) (newChain : List TypeId)
    (initB : Machine → Machine × List Action)
    (hcur : m.cur = some o) (hid : newChain.head? = o.chain.head?) :
    setState m newChain initB =
        ({ m with nextId := m.nextId + 1 }, [Action.destroyAct m.nextId])
      ∧ (setState m newChain initB).1.cur = m.cur
      ∧ ∀ t, Action.initAct t ∉ (setState m newChain initB).2
          ∧ Action.entryAct t ∉ (setState m newChain initB).2
          ∧ Action.exitAct t ∉ (setState m newChain initB).2 := by
  obtain ⟨mc, mte, mtt, mnid⟩ := m
  have hmc : mc = some o := hcur
  subst hmc
  have hmain : setState ⟨some o, mte, mtt, mnid⟩ newChain initB =
      (⟨some o, mte, mtt, mnid + 1⟩, [Action.destroyAct mnid]) := by
    simp only [setState]
    rw [if_pos hid]
  refine ⟨hmain, by rw [hmain], ?_⟩
  intro t
  rw [hmain]
  refine ⟨?_, ?_, ?_⟩ <;> simp

/-- Witness for claim C5: requesting the already-active type `3` leaves
the current state object untouched and only destroys the candidate. -/
theorem hfsm_identity_noop_witness :
    setState ⟨some ⟨0, [3, 1]⟩, true, 50, 1⟩ [3, 1] (fun mm => (mm, [])) =
        (⟨some ⟨0, [3, 1]⟩, true, 50, 2⟩, [Action.destroyAct 1])
      ∧ (setState ⟨some ⟨0, [3, 1]⟩, true, 50, 1⟩ [3, 1] (fun mm => (mm, []))).1.cur
          = some ⟨0, [3, 1]⟩ := by
  have h := hfsm_identity_noop ⟨some ⟨0, [3, 1]⟩, true, 50, 1⟩ ⟨0, [3, 1]⟩ [3, 1]
    (fun mm => (mm, [])) rfl (by decide)
  refine ⟨?_, ?_⟩
  · rw [h.1]
  · rw [h.2.1]

/-- Claim C6: every state exit clears a pending timeout (after an exit
walk that exits at least one level the timer is disabled and no
`timeoutEvent` can be delivered); the timer is one-shot per arming (after
dispatching `timeoutEvent` the timer is disabled, so a further expiry
delivers nothing); and `clearTimeout` is idempotent — with no timeout
pending it has no effect at all. -/
theorem hfsm_timeout_clear :
    (∀ (m : Machine) (t : TypeId) (rest toChain : List TypeId), t ∉ toChain →
      (exitWalkM m (t :: rest) toChain).1.timerEnabled = false
        ∧ timerExpire (exitWalkM m (t :: rest) toChain).1 = none)
    ∧ (∀ (m : Machine) (o : StateObj), m.timerEnabled = true → m.cur = some o →
        timerExpire m = some (clearTimeout m, [Action.timeoutEventAct o.chain.headI])
          ∧ timerExpire (clearTimeout m) = none)
    ∧ (∀ m : Machine, clearTimeout (clearTimeout m) = clearTimeout m
        ∧ (m.timerEnabled = false → clearTimeout m = m)) := by
  refine ⟨?_, ?_, ?_⟩
  · intro m t rest toChain ht
    have hdis : (exitWalkM m (t :: rest) toChain).1.timerEnabled = false := by
      simp only [exitWalkM, if_neg ht]
      exact exitWalkM_timer_false toChain rest (clearTimeout m) rfl
    exact ⟨hdis, by simp [timerExpire, hdis]⟩
  · intro m o hen hcur
    refine ⟨?_, ?_⟩
    · simp [timerExpire, hen, hcur]
    · simp [timerExpire, clearTimeout]
  · intro m
    refine ⟨rfl, ?_⟩
    intro hdis
    cases m with
    | mk cur te tt nid =>
      simp only [clearTimeout]
      simp only at hdis
      rw [hdis]

/-- Witness for claim C6: a concrete armed machine in state `[3, 1]`: the
exit walk disables the timer, expiry dispatches exactly once, and
`clearTimeout` is idempotent. -/
theorem hfsm_timeout_clear_witness :
    (exitWalkM ⟨some ⟨0, [3, 1]⟩, true, 100, 1⟩ [3, 1] [5, 1]).1.timerEnabled = false
      ∧ timerExpire ⟨some ⟨0, [3, 1]⟩, true, 100, 1⟩
          = some (⟨some ⟨0, [3, 1]⟩, false, 100, 1⟩, [Action.timeoutEventAct 3])
      ∧ clearTimeout (clearTimeout ⟨some ⟨0, [3, 1]⟩, false, 100, 1⟩)
          = clearTimeout ⟨some ⟨0, [3, 1]⟩, false, 100, 1⟩
      ∧ clearTimeout ⟨some ⟨0, [3, 1]⟩, false, 100, 1⟩ = ⟨some ⟨0, [3, 1]⟩, false, 100, 1⟩ := by
  refine ⟨?_, ?_, ?_, ?_⟩
  · exact (hfsm_timeout_clear.1 ⟨some ⟨0, [3, 1]⟩, true, 100, 1⟩ 3 [1] [5, 1] (by decide)).1
  · exact (hfsm_timeout_clear.2.1 ⟨some ⟨0, [3, 1]⟩, true, 100, 1⟩ ⟨0, [3, 1]⟩ rfl rfl).1
  · exact (hfsm_timeout_clear.2.2 ⟨some ⟨0, [3, 1]⟩, false, 100, 1⟩).1
  · exact (hfsm_timeout_clear.2.2 ⟨some ⟨0, [3, 1]⟩, false, 100, 1⟩).2 rfl

/-- Claim C10: `m_state` is null from construction until `start()`
installs the top state ( `isActive` and `state` then have no value to
dereference, modelled by `none`); once a state is installed, the
dereference is defined and `isActive<T>` returns `true` exactly when
`typeid(T)` equals the active state's dynamic type identity. -/
theorem hfsm_isActive_deref :
    (stateOf mkMachine = none ∧ ∀ t, isActive mkMachine t = none)
    ∧ (∀ (m : Machine) (o : StateObj) (t : TypeId), m.cur = some o →
        isActive m t = some (decide (o.chain.head? = some t))
          ∧ (isActive m t = some true ↔ o.chain.head? = some t)
          ∧ stateOf m = some o)
    ∧ (∀ c : List TypeId, (start mkMachine c (fun mm => (mm, []))).1.cur = some ⟨0, c⟩) := by
  refine ⟨⟨rfl, fun t => rfl⟩, ?_, ?_⟩
  · intro m o t hcur
    refine ⟨by simp [isActive, hcur], ?_, by simp [stateOf, hcur]⟩
    simp [isActive, hcur]
  · intro c
    simp [start, setState, setStateCore, mkMachine]

/-- Witness for claim C10: before `start()` both accessors are undefined;
after installing `[3, 1]`, `isActive` answers by type identity. -/
theorem hfsm_isActive_deref_witness :
    stateOf mkMachine = none
      ∧ isActive mkMachine 3 = none
      ∧ isActive ⟨some ⟨0, [3, 1]⟩, false, -1, 1⟩ 3 = some true
      ∧ isActive ⟨some ⟨0, [3, 1]⟩, false, -1, 1⟩ 1 = some false
      ∧ (start mkMachine [3, 1] (fun mm => (mm, []))).1.cur = some ⟨0, [3, 1]⟩ := by
  refine ⟨hfsm_isActive_deref.1.1, hfsm_isActive_deref.1.2 3, ?_, ?_, ?_⟩
  · rw [(hfsm_isActive_deref.2.1 ⟨some ⟨0, [3, 1]⟩, false, -1, 1⟩ ⟨0, [3, 1]⟩ 3 rfl).1]
    decide
  · rw [(hfsm_isActive_deref.2.1 ⟨some ⟨0, [3, 1]⟩, false, -1, 1⟩ ⟨0, [3, 1]⟩ 1 rfl).1]
    decide
  · exact hfsm_isActive_deref.2.2 [3, 1]

/-! ## Lemmas about the splitter -/

theorem minCursor_le (bl : ℕ) (bs : List SpBranch) :
    minCursor bl bs ≤ bl ∧ ∀ b ∈ bs, b.enabled = true → minCursor bl bs ≤ b.cursor := by
  induction bs with
  | nil => simp [minCursor]
  | cons b bs ih =>
    by_cases hb : b.enabled = true
    · have hfold : minCursor bl (b :: bs) = min b.cursor (minCursor bl bs) := by
        simp [minCursor, List.foldr, hb]
      refine ⟨?_, ?_⟩
      · rw [hfold]
        exact le_trans (min_le_right _ _) ih.1
      · intro b' hb' he
        rcases hb' with _ | hmem
        · rw [hfold]
          exact min_le_left _ _
        · rw [hfold]
          exact le_trans (min_le_right _ _) (ih.2 b' (by assumption) he)
    · have hfold : minCursor bl (b :: bs) = minCursor bl bs := by
        simp [minCursor, List.foldr, hb]
      refine ⟨by rw [hfold]; exact ih.1, ?_⟩
      intro b' hb' he
      rcases hb' with _ | hmem
      · exact absurd he hb
      · rw [hfold]
        exact ih.2 b' (by assumption) he

theorem drained_iff (bl : ℕ) (bs : List SpBranch) :
    drained bl bs = true ↔ ∀ b ∈ bs, b.enabled = true → b.cursor = bl := by
  simp only [drained, List.all_eq_true, Bool.or_eq_true, Bool.not_eq_true', decide_eq_true_eq]
  constructor
  · intro h b hb he
    rcases h b hb with h' | h'
    · exact absurd he (by simp [h'])
    · exact h'
  · intro h b hb
    by_cases he : b.enabled = true
    · exact Or.inr (h b hb he)
    · exact Or.inl (by simpa using he)

theorem countResume_append (l1 l2 : List SpEvent) :
    countResume (l1 ++ l2) = countResume l1 + countResume l2 := by
  induction l1 with
  | nil => simp [countResume]
  | cons e es ih =>
    cases e with
    | absorbed n => simp [countResume, ih]
    | resumeOut =>
      simp [countResume, ih]
      omega

theorem writeFromBuffer_resume (s : Splitter) (accs : List ℕ) :
    countResume (writeFromBuffer s accs).2.1
        = (if s.input_stopped = true ∧ (writeFromBuffer s accs).1.input_stopped = false
           then 1 else 0)
      ∧ (writeFromBuffer s accs).2.2
          = minCursor s.buf_len (passBranches s.buf_len s.branches accs) := by
  unfold writeFromBuffer
  by_cases hd : drained s.buf_len (passBranches s.buf_len s.branches accs) = true
  · simp only [hd, if_true]
    by_cases hs : s.input_stopped = true
    · simp [hs, countResume]
    · simp [hs, countResume]
  · simp only [hd, if_false, Bool.false_eq_true]
    simp [countResume]

theorem countResume_applyOp (s : Splitter) (op : SpOp) :
    countResume (applyOp s op).2
      = (if s.input_stopped = true ∧ (applyOp s op).1.input_stopped = false
         then 1 else 0) := by
  cases op with
  | write len accs =>
    have h := writeFromBuffer_resume { s with buf_len := s.buf_len + len } accs
    simp only [applyOp, spWriteSamples, countResume_append]
    rw [h.1]
    simp [countResume]
  | resume accs =>
    have h := writeFromBuffer_resume s accs
    simp only [applyOp, spResume]
    rw [h.1]

theorem countResume_runOps (ops : List SpOp) :
    ∀ s, countResume (runOps s ops).2 = countTransitions s ops := by
  induction ops with
  | nil =>
    intro s
    simp [runOps, countTransitions, countResume]
  | cons op ops ih =>
    intro s
    simp [runOps, countTransitions, countResume_append, countResume_applyOp, ih]

/-! ## Claim theorem: splitter -/

/-- Claim C9 (modelled from the spec, the `writeSamples` body not being
among the sources): a `writeSamples` call reports as absorbed exactly the
new minimum cursor over the enabled branches, which is at most every
enabled branch's cursor (and at most `buf_len`); the fully-drained
condition is that every enabled branch's cursor equals `buf_len`; and over
any operation sequence upstream receives `resume_output` exactly once per
transition from the input-stopped condition to the drained (not stopped)
condition. -/
theorem splitter_backpressure :
    (∀ (s : Splitter) (len : ℕ) (accs : List ℕ),
      (spWriteSamples s len accs).2.getLast?
          = some (SpEvent.absorbed (minCursor (s.buf_len + len)
              (passBranches (s.buf_len + len) s.branches accs)))
        ∧ minCursor (s.buf_len + len) (passBranches (s.buf_len + len) s.branches accs)
            ≤ s.buf_len + len
        ∧ ∀ b ∈ passBranches (s.buf_len + len) s.branches accs, b.enabled = true →
            minCursor (s.buf_len + len) (passBranches (s.buf_len + len) s.branches accs)
              ≤ b.cursor)
    ∧ (∀ (bl : ℕ) (bs : List SpBranch),
        drained bl bs = true ↔ ∀ b ∈ bs, b.enabled = true → b.cursor = bl)
    ∧ (∀ (s : Splitter) (ops : List SpOp),
        countResume (runOps s ops).2 = countTransitions s ops) := by
  refine ⟨?_, drained_iff, fun s ops => countResume_runOps ops s⟩
  intro s len accs
  have h := writeFromBuffer_resume { s with buf_len := s.buf_len + len } accs
  have hm := minCursor_le (s.buf_len + len) (passBranches (s.buf_len + len) s.branches accs)
  refine ⟨?_, hm.1, hm.2⟩
  simp only [spWriteSamples]
  rw [List.getLast?_append_cons, h.2]
  rfl

/-- Witness for claim C9: one branch accepting one of two offered samples
stops the input and reports `1`; the branch then draining the rest
produces exactly one upstream `resume_output` for the one
stopped-to-drained transition. -/
theorem splitter_backpressure_witness :
    (spWriteSamples ⟨[⟨true, 0⟩], 0, false⟩ 2 [1]).2.getLast? = some (SpEvent.absorbed 1)
      ∧ countResume (runOps ⟨[⟨true, 0⟩], 0, false⟩
          [SpOp.write 2 [1], SpOp.resume [1]]).2 = 1
      ∧ countTransitions ⟨[⟨true, 0⟩], 0, false⟩ [SpOp.write 2 [1], SpOp.resume [1]] = 1 := by
  refine ⟨?_, ?_, by decide⟩
  · have h := (splitter_backpressure.1 ⟨[⟨true, 0⟩], 0, false⟩ 2 [1]).1
    rw [h]
    decide
  · rw [splitter_backpressure.2.2 ⟨[⟨true, 0⟩], 0, false⟩ [SpOp.write 2 [1], SpOp.resume [1]]]
    decide

end SvxLink
